import Mathlib

set_option autoImplicit false

/-!
Shallow embedding of the dependency-graph library (`src/lib.rs`).

The Rust code stores nodes as `Rc<RefCell<Node>>` in a `HashMap<String, _>`,
and edges hold `Weak` back-references to node allocations.  We model each
`Rc` allocation by a distinct natural number handed out by a counter
(`nextId`); the map is an association list with at most one entry per key,
each entry remembering the key, the allocation identity, and the node value.
Upgrading a `Weak` reference succeeds exactly when the allocation is still
strongly owned, i.e. when some live map entry carries that identity (the map
is the only durable owner of nodes in the source).  Calls to `expect` (fatal
process aborts) are modelled by `none` / dedicated `fatal` results.
-/

namespace DagSpec

/-- An edge: a weight and a non-owning reference to the target node,
represented by the numeric identity of the allocation it was downgraded
from (`Edge to_node: NodeWeakRef` in the source). -/
structure Edge where
  weight : Int
  to_node : Nat
deriving Repr, DecidableEq

/-- A node: key, opaque payload, and the ordered list of outgoing edges. -/
structure Node (α : Type) where
  key : String
  data : α
  edges : List Edge
deriving Repr, DecidableEq

/-- The graph: key-to-node mapping, invalidated key set, and the counter
supplying fresh allocation identities. -/
structure Dag (α : Type) where
  nodes : List (String × Nat × Node α)
  invalidated : List String
  nextId : Nat
deriving Repr, DecidableEq

variable {α : Type}

/-- First entry of the mapping with the given key, mirroring `HashMap::get`. -/
def lookupKey (key : String) : List (String × Nat × Node α) → Option (Nat × Node α)
  | [] => none
  | e :: rest => if e.1 = key then some e.2 else lookupKey key rest

/-- First entry of the mapping whose allocation identity is `i`: this models
upgrading a `Weak` reference, which succeeds exactly when the allocation is
still strongly owned by the map. -/
def lookupId (i : Nat) : List (String × Nat × Node α) → Option (Node α)
  | [] => none
  | e :: rest => if e.2.1 = i then some e.2.2 else lookupId i rest

/-- Removal of every entry under a key (`HashMap::insert` overwrites, and
`HashMap::remove` deletes, the entry at the key). -/
def eraseKey (key : String) : List (String × Nat × Node α) → List (String × Nat × Node α)
  | [] => []
  | e :: rest => if e.1 = key then eraseKey key rest else e :: eraseKey key rest

/-- In-place mutation of the node allocation with identity `i`
(`RefCell::borrow_mut` on the shared object). -/
def mutateId (i : Nat) (f : Node α → Node α) :
    List (String × Nat × Node α) → List (String × Nat × Node α)
  | [] => []
  | e :: rest => (if e.2.1 = i then (e.1, e.2.1, f e.2.2) else e) :: mutateId i f rest

/-- Set insertion on the invalidated keys (`HashSet::insert`). -/
def insertSet (k : String) (s : List String) : List String :=
  if k ∈ s then s else k :: s

/-- Constructor `Dag::new`. -/
def Dag.new : Dag α := ⟨[], [], 0⟩

/-- `Dag::get`: resolve a key to the strongly owned node, reporting the
allocation identity of the returned `Rc` clone alongside the node. -/
def Dag.get (d : Dag α) (key : String) : Option (Nat × Node α) :=
  lookupKey key d.nodes

/-- Upgrade of a `Weak` back-reference against the current graph. -/
def Dag.upgrade (d : Dag α) (i : Nat) : Option (Node α) :=
  lookupId i d.nodes

/-- `Dag::add`: allocate a brand-new node under the key, overwriting any
existing entry; the invalidated set is untouched. -/
def Dag.add (d : Dag α) (key : String) (data : α) : Dag α :=
  { d with
    nodes := (key, d.nextId, ⟨key, data, []⟩) :: eraseKey key d.nodes
    nextId := d.nextId + 1 }

/-- `Dag::update`: if the key resolves, replace the payload of the same
allocation in place and mark the key invalidated; otherwise do nothing. -/
def Dag.update (d : Dag α) (key : String) (data : α) : Dag α :=
  match d.get key with
  | some (i, _) =>
      { d with
        nodes := mutateId i (fun n => { n with data := data }) d.nodes
        invalidated := insertSet key d.invalidated }
  | none => d

/-- `Dag::remove`: drop the entry at the key and report whether one existed;
the invalidated set is untouched. -/
def Dag.remove (d : Dag α) (key : String) : Dag α × Bool :=
  ({ d with nodes := eraseKey key d.nodes }, (d.get key).isSome)

/-- `Node::add_edge`: push an edge holding the downgraded reference. -/
def Node.add_edge (n : Node α) (toId : Nat) (weight : Int) : Node α :=
  { n with edges := n.edges ++ [⟨weight, toId⟩] }

/-- `Dag::add_edge`: resolve both keys (fatal, i.e. `none`, if either is
absent), then push a weight-1 edge onto the node of `to_key` whose target is
the allocation of `from_key`. -/
def Dag.add_edge (d : Dag α) (to_key from_key : String) : Option (Dag α) :=
  match d.get to_key with
  | none => none
  | some (ti, _) =>
    match d.get from_key with
    | none => none
    | some (fi, _) =>
        some { d with nodes := mutateId ti (fun n => n.add_edge fi 1) d.nodes }

/-- Scan of an edge list by `Dag::get_edge_weight`: upgrading each target in
turn is fatal (`none`) on a dangling reference; a target whose key matches
yields the weight; an exhausted list yields the soft-miss sentinel `-1`. -/
def findWeight (d : Dag α) (to_key : String) : List Edge → Option Int
  | [] => some (-1)
  | e :: rest =>
    match d.upgrade e.to_node with
    | none => none
    | some tn => if tn.key = to_key then some e.weight else findWeight d to_key rest

/-- `Dag::get_edge_weight`: resolve `from_key` (fatal if absent) and scan the
edge list of that node. -/
def Dag.get_edge_weight (d : Dag α) (to_key from_key : String) : Option Int :=
  match d.get from_key with
  | none => none
  | some (_, fn) => findWeight d to_key fn.edges

/-- Result of a traversal: normal completion carrying the visited set and the
chronological list of callback invocations (recorded by node key), a fatal
abort from upgrading a dangling edge target, or fuel exhaustion (an artifact
of the embedding; the sufficiency theorems discharge it). -/
inductive TRes where
  | ok (visited : List String) (calls : List String)
  | fatal
  | fuelOut
deriving Repr, DecidableEq

/-- Edge loop inside `Dag::traverse`, parametrised by the recursive
traversal `trav` applied to each upgraded target. -/
def goEdges (d : Dag α) (trav : Node α → List String → TRes) :
    List Edge → List String → List String → TRes
  | [], visited, calls => .ok visited calls
  | e :: rest, visited, calls =>
    match d.upgrade e.to_node with
    | none => .fatal
    | some tn =>
      match trav tn visited with
      | .ok v c => goEdges d trav rest v (calls ++ c)
      | r => r

/-- `Dag::traverse` with explicit fuel: skip a node already visited, else
record it as visited, invoke the callback, and recurse through its edges. -/
def traverseFuel (d : Dag α) : Nat → Node α → List String → TRes
  | 0, _, _ => .fuelOut
  | fuel + 1, n, visited =>
    if n.key ∈ visited then .ok visited []
    else goEdges d (traverseFuel d fuel) n.edges (n.key :: visited) [n.key]

/-- Result of the root loop of `Dag::dispatch`. -/
inductive RRes where
  | ok (calls : List String)
  | fatal
  | fuelOut
deriving Repr, DecidableEq

/-- Root loop of `Dag::dispatch`: keys that no longer resolve are skipped;
each resolving root is traversed with a fresh visited set. -/
def dispatchRoots (d : Dag α) (fuel : Nat) : List String → RRes
  | [] => .ok []
  | r :: rest =>
    match d.get r with
    | none => dispatchRoots d fuel rest
    | some (_, n) =>
      match traverseFuel d fuel n [] with
      | .ok _ c =>
        match dispatchRoots d fuel rest with
        | .ok c2 => .ok (c ++ c2)
        | r2 => r2
      | .fatal => .fatal
      | .fuelOut => .fuelOut

/-- Result of `Dag::dispatch`: the new graph and the full callback sequence,
or a fatal abort, or fuel exhaustion. -/
inductive DRes (α : Type) where
  | ok (d : Dag α) (calls : List String)
  | fatal
  | fuelOut
deriving Repr, DecidableEq

/-- `Dag::dispatch`: walk every invalidated root, then clear the invalidated
set.  The node mapping is never changed by a dispatch. -/
def Dag.dispatch (d : Dag α) (fuel : Nat) : DRes α :=
  match dispatchRoots d fuel d.invalidated with
  | .ok calls => .ok { d with invalidated := [] } calls
  | .fatal => .fatal
  | .fuelOut => .fuelOut

/-- Keys of the live entries. -/
def liveKeys (d : Dag α) : List String := d.nodes.map (fun e => e.1)

/-- Allocation identities of the live entries. -/
def liveIds (d : Dag α) : List Nat := d.nodes.map (fun e => e.2.1)

/-- Well-formedness maintained by every API operation: keys are unique
(`HashMap` keys), allocation identities are unique and below the counter
(each `Rc::new` is a fresh allocation), the node stored under a key carries
that key, and the invalidated set has no duplicates (`HashSet`). -/
def WF (d : Dag α) : Prop :=
  (liveKeys d).Nodup ∧ (liveIds d).Nodup ∧
  (∀ e ∈ d.nodes, e.2.2.key = e.1) ∧
  (∀ e ∈ d.nodes, e.2.1 < d.nextId) ∧
  d.invalidated.Nodup

instance (d : Dag α) [DecidableEq α] : Decidable (WF d) := by
  unfold WF; infer_instance

/-- One step of the edge relation between keys: the node live at key `a` has
an edge whose target upgrades to a node with key `b`. -/
def edgeTo (d : Dag α) (a b : String) : Prop :=
  ∃ i n, d.get a = some (i, n) ∧
    ∃ e ∈ n.edges, ∃ tn, d.upgrade e.to_node = some tn ∧ tn.key = b

/-- Reachability between keys along resolvable edges (reflexive-transitive
closure of `edgeTo`). -/
inductive Reach (d : Dag α) : String → String → Prop
  | refl (a : String) : Reach d a a
  | step {a b c : String} : edgeTo d a b → Reach d b c → Reach d a c

/-- Every edge of the node live at `k` (if any) upgrades. -/
def resolvesAll (d : Dag α) (k : String) : Prop :=
  ∀ i n, d.get k = some (i, n) → ∀ e ∈ n.edges, ∃ tn, d.upgrade e.to_node = some tn

/-! Basic lemmas about the association-list primitives. -/

theorem lookupKey_mem {key : String} {l : List (String × Nat × Node α)} {p : Nat × Node α}
    (h : lookupKey key l = some p) : (key, p) ∈ l := by
  induction l with
  | nil => simp [lookupKey] at h
  | cons e rest ih =>
    obtain ⟨k0, p0⟩ := e
    simp only [lookupKey] at h
    split at h
    · next heq =>
      cases h
      have heq2 : k0 = key := heq
      subst heq2
      exact List.mem_cons_self _ _
    · exact List.mem_cons_of_mem _ (ih h)

theorem lookupId_mem {i : Nat} {l : List (String × Nat × Node α)} {n : Node α}
    (h : lookupId i l = some n) : ∃ k, (k, i, n) ∈ l := by
  induction l with
  | nil => simp [lookupId] at h
  | cons e rest ih =>
    obtain ⟨k0, i0, n0⟩ := e
    simp only [lookupId] at h
    split at h
    · next heq =>
      cases h
      have heq2 : i0 = i := heq
      subst heq2
      exact ⟨k0, List.mem_cons_self _ _⟩
    · obtain ⟨k, hk⟩ := ih h
      exact ⟨k, List.mem_cons_of_mem _ hk⟩

theorem lookupKey_of_mem_nodupKeys {key : String} {l : List (String × Nat × Node α)}
    {p : Nat × Node α} (hnd : (l.map (fun e => e.1)).Nodup) (hmem : (key, p) ∈ l) :
    lookupKey key l = some p := by
  induction l with
  | nil => simp at hmem
  | cons e rest ih =>
    simp only [List.map_cons, List.nodup_cons] at hnd
    rcases List.mem_cons.mp hmem with h | h
    · subst h; simp [lookupKey]
    · have hne : e.1 ≠ key := by
        intro hk
        exact hnd.1 (hk ▸ (List.mem_map.mpr ⟨(key, p), h, rfl⟩))
      simp [lookupKey, hne, ih hnd.2 h]

theorem lookupId_of_mem_nodupIds {i : Nat} {l : List (String × Nat × Node α)}
    {k : String} {n : Node α} (hnd : (l.map (fun e => e.2.1)).Nodup)
    (hmem : (k, i, n) ∈ l) : lookupId i l = some n := by
  induction l with
  | nil => simp at hmem
  | cons e rest ih =>
    simp only [List.map_cons, List.nodup_cons] at hnd
    rcases List.mem_cons.mp hmem with h | h
    · subst h; simp [lookupId]
    · have hne : e.2.1 ≠ i := by
        intro hk
        exact hnd.1 (hk ▸ (List.mem_map.mpr ⟨(k, i, n), h, rfl⟩))
      simp [lookupId, hne, ih hnd.2 h]

theorem lookupId_eq_none_iff {i : Nat} {l : List (String × Nat × Node α)} :
    lookupId i l = none ↔ ∀ e ∈ l, e.2.1 ≠ i := by
  induction l with
  | nil => simp [lookupId]
  | cons e rest ih =>
    by_cases h : e.2.1 = i
    · simp [lookupId, h]
    · simp [lookupId, h, ih]

/-! Lemmas about `eraseKey`. -/

theorem eraseKey_sublist (key : String) (l : List (String × Nat × Node α)) :
    (eraseKey key l).Sublist l := by
  induction l with
  | nil => simp [eraseKey]
  | cons e rest ih =>
    by_cases h : e.1 = key
    · simp only [eraseKey, if_pos h]
      exact ih.cons _
    · simp only [eraseKey, if_neg h]
      exact ih.cons₂ _

theorem mem_eraseKey {key : String} {l : List (String × Nat × Node α)}
    {e : String × Nat × Node α} : e ∈ eraseKey key l ↔ e ∈ l ∧ e.1 ≠ key := by
  induction l with
  | nil => simp [eraseKey]
  | cons f rest ih =>
    by_cases h : f.1 = key
    · simp only [eraseKey, if_pos h, ih, List.mem_cons]
      constructor
      · rintro ⟨hm, hne⟩; exact ⟨Or.inr hm, hne⟩
      · rintro ⟨hm | hm, hne⟩
        · subst hm; exact absurd h hne
        · exact ⟨hm, hne⟩
    · simp only [eraseKey, if_neg h, List.mem_cons, ih]
      constructor
      · rintro (hm | ⟨hm, hne⟩)
        · exact ⟨Or.inl hm, hm ▸ h⟩
        · exact ⟨Or.inr hm, hne⟩
      · rintro ⟨hm | hm, hne⟩
        · exact Or.inl hm
        · exact Or.inr ⟨hm, hne⟩

theorem lookupKey_eraseKey_self (key : String) (l : List (String × Nat × Node α)) :
    lookupKey key (eraseKey key l) = none := by
  induction l with
  | nil => simp [eraseKey, lookupKey]
  | cons e rest ih =>
    by_cases h : e.1 = key
    · simpa [eraseKey, h]
    · simpa [eraseKey, lookupKey, h]

theorem lookupKey_eraseKey_ne {key k : String} (hne : k ≠ key)
    (l : List (String × Nat × Node α)) :
    lookupKey k (eraseKey key l) = lookupKey k l := by
  induction l with
  | nil => simp [eraseKey]
  | cons e rest ih =>
    by_cases h : e.1 = key
    · have h2 : ¬ e.1 = k := fun hk => hne (hk ▸ h)
      have h3 : ¬ key = k := fun hk => hne hk.symm
      simp [eraseKey, lookupKey, h, h2, h3, ih]
    · simp [eraseKey, lookupKey, h, ih]

/-! Lemmas about `mutateId`. -/

theorem mutateId_map_keys (i : Nat) (f : Node α → Node α)
    (l : List (String × Nat × Node α)) :
    (mutateId i f l).map (fun e => e.1) = l.map (fun e => e.1) := by
  induction l with
  | nil => simp [mutateId]
  | cons e rest ih =>
    by_cases h : e.2.1 = i <;> simp [mutateId, h, ih]

theorem mutateId_map_ids (i : Nat) (f : Node α → Node α)
    (l : List (String × Nat × Node α)) :
    (mutateId i f l).map (fun e => e.2.1) = l.map (fun e => e.2.1) := by
  induction l with
  | nil => simp [mutateId]
  | cons e rest ih =>
    by_cases h : e.2.1 = i <;> simp [mutateId, h, ih]

theorem lookupKey_mutateId (i : Nat) (f : Node α → Node α) (key : String)
    (l : List (String × Nat × Node α)) :
    lookupKey key (mutateId i f l) =
      (lookupKey key l).map (fun p => if p.1 = i then (p.1, f p.2) else p) := by
  induction l with
  | nil => simp [mutateId, lookupKey]
  | cons e rest ih =>
    by_cases hi : e.2.1 = i
    · by_cases hk : e.1 = key
      · simp [mutateId, lookupKey, hi, hk]
      · simp [mutateId, lookupKey, hi, hk, ih]
    · by_cases hk : e.1 = key
      · simp [mutateId, lookupKey, hi, hk]
      · simp [mutateId, lookupKey, hi, hk, ih]

theorem lookupId_mutateId (i j : Nat) (f : Node α → Node α)
    (l : List (String × Nat × Node α)) :
    lookupId j (mutateId i f l) =
      (lookupId j l).map (fun n => if j = i then f n else n) := by
  induction l with
  | nil => simp [mutateId, lookupId]
  | cons e rest ih =>
    by_cases hi : e.2.1 = i
    · by_cases hj : e.2.1 = j
      · have hij : j = i := by rw [← hj, hi]
        simp [mutateId, lookupId, hi, hj, hij]
      · have hij : ¬ i = j := fun h => hj (by rw [hi, h])
        simp [mutateId, lookupId, hi, hj, hij, ih]
    · by_cases hj : e.2.1 = j
      · have hij : ¬ j = i := fun h => hi (by rw [hj, h])
        simp [mutateId, lookupId, hi, hj, hij]
      · simp [mutateId, lookupId, hi, hj, ih]

/-! Consequences of well-formedness for `get` and `upgrade`. -/

theorem WF.get_key {d : Dag α} (hWF : WF d) {k : String} {i : Nat} {n : Node α}
    (h : d.get k = some (i, n)) : n.key = k :=
  hWF.2.2.1 _ (lookupKey_mem h)

theorem WF.get_upgrade {d : Dag α} (hWF : WF d) {k : String} {i : Nat} {n : Node α}
    (h : d.get k = some (i, n)) : d.upgrade i = some n :=
  lookupId_of_mem_nodupIds hWF.2.1 (lookupKey_mem h)

theorem WF.upgrade_get {d : Dag α} (hWF : WF d) {i : Nat} {n : Node α}
    (h : d.upgrade i = some n) : d.get n.key = some (i, n) := by
  obtain ⟨k, hk⟩ := lookupId_mem h
  have hkey : n.key = k := hWF.2.2.1 _ hk
  exact hkey ▸ lookupKey_of_mem_nodupKeys hWF.1 hk

theorem WF.get_id_lt {d : Dag α} (hWF : WF d) {k : String} {i : Nat} {n : Node α}
    (h : d.get k = some (i, n)) : i < d.nextId :=
  hWF.2.2.2.1 _ (lookupKey_mem h)

theorem WF.id_inj {d : Dag α} (hWF : WF d) {k1 k2 : String} {i : Nat} {n1 n2 : Node α}
    (h1 : d.get k1 = some (i, n1)) (h2 : d.get k2 = some (i, n2)) :
    k1 = k2 ∧ n1 = n2 := by
  have hids : (d.nodes.map (fun e => e.2.1)).Nodup := hWF.2.1
  have := List.inj_on_of_nodup_map hids (lookupKey_mem h1) (lookupKey_mem h2) rfl
  cases this
  exact ⟨rfl, rfl⟩

/-! Claim C10. -/

/-- Claim C10: `add` leaves the invalidated set unchanged, even when it
replaces an existing node under the key; in particular the key is marked
invalidated afterwards exactly when it already was before, so a dispatch with
no intervening `update` does not gain the key as a root. -/
theorem c10_add_invalidated_unchanged (d : Dag α) (k : String) (v : α) :
    (d.add k v).invalidated = d.invalidated ∧
    (k ∈ (d.add k v).invalidated ↔ k ∈ d.invalidated) :=
  ⟨rfl, Iff.rfl⟩

/-! Claim C6. -/

/-- Claim C6: when the key resolves, `update` replaces the payload in place:
the same allocation identity stays under the same key with the same edge
list and the new payload, other keys are untouched, edges elsewhere
targeting the allocation still resolve (to the updated node), and the key is
inserted into the invalidated set.  When the key is absent, `update` is a
silent no-op returning the graph unchanged. -/
@[simp] theorem Dag.get_mk (nodes : List (String × Nat × Node α)) (inv : List String)
    (nid : Nat) (k : String) :
    (Dag.mk nodes inv nid).get k = lookupKey k nodes := rfl

@[simp] theorem Dag.upgrade_mk (nodes : List (String × Nat × Node α)) (inv : List String)
    (nid : Nat) (i : Nat) :
    (Dag.mk nodes inv nid).upgrade i = lookupId i nodes := rfl

theorem c6_update_in_place (d : Dag α) (hWF : WF d) (k : String) (v : α) :
    (∀ i n, d.get k = some (i, n) →
      (d.update k v).get k = some (i, ⟨n.key, v, n.edges⟩) ∧
      (d.update k v).invalidated = insertSet k d.invalidated ∧
      (∀ k2, k2 ≠ k → (d.update k v).get k2 = d.get k2) ∧
      (d.update k v).upgrade i = some ⟨n.key, v, n.edges⟩ ∧
      (d.update k v).nextId = d.nextId) ∧
    (d.get k = none → d.update k v = d) := by
  constructor
  · intro i n h
    have h' : lookupKey k d.nodes = some (i, n) := h
    have hup : lookupId i d.nodes = some n := hWF.get_upgrade h
    refine ⟨?_, ?_, ?_, ?_, ?_⟩
    · simp [Dag.update, h, lookupKey_mutateId, h']
    · simp [Dag.update, h]
    · intro k2 hk2
      cases h2 : d.get k2 with
      | none =>
        have h2' : lookupKey k2 d.nodes = none := h2
        simp [Dag.update, h, lookupKey_mutateId, h2', h2]
      | some p =>
        obtain ⟨i2, n2⟩ := p
        have hne : i2 ≠ i := fun hi => hk2 ((hWF.id_inj (hi ▸ h2) h).1)
        have h2' : lookupKey k2 d.nodes = some (i2, n2) := h2
        simp [Dag.update, h, lookupKey_mutateId, h2', h2, hne]
    · simp [Dag.update, h, lookupId_mutateId, hup]
    · simp [Dag.update, h]
  · intro h
    simp [Dag.update, h]

/-! Claim C8. -/

/-- Claim C8: `add_edge` is fatal when either key is absent; when both
resolve it appends exactly one weight-1 edge, targeting the allocation of
`from_key`, to the end of the edge list of the node of `to_key`, and changes
nothing else: every other key and every other allocation resolves as before,
and the invalidated set and the counter are unchanged. -/
theorem c8_add_edge_spec (d : Dag α) (hWF : WF d) (t f : String) :
    ((d.get t = none ∨ d.get f = none) → d.add_edge t f = none) ∧
    (∀ ti tn fi fn, d.get t = some (ti, tn) → d.get f = some (fi, fn) →
      ∃ d2, d.add_edge t f = some d2 ∧
        d2.get t = some (ti, ⟨tn.key, tn.data, tn.edges ++ [⟨1, fi⟩]⟩) ∧
        (∀ k, k ≠ t → d2.get k = d.get k) ∧
        (∀ j, j ≠ ti → d2.upgrade j = d.upgrade j) ∧
        d2.upgrade ti = some ⟨tn.key, tn.data, tn.edges ++ [⟨1, fi⟩]⟩ ∧
        d2.invalidated = d.invalidated ∧ d2.nextId = d.nextId) := by
  constructor
  · rintro (h | h)
    · simp [Dag.add_edge, h]
    · cases hgt : d.get t with
      | none => simp [Dag.add_edge, hgt]
      | some p =>
        obtain ⟨ti, tn⟩ := p
        simp [Dag.add_edge, hgt, h]
  · intro ti tn fi fn ht hf
    have ht' : lookupKey t d.nodes = some (ti, tn) := ht
    have htup : lookupId ti d.nodes = some tn := hWF.get_upgrade ht
    refine ⟨{ d with nodes := mutateId ti (fun n => n.add_edge fi 1) d.nodes },
      by simp [Dag.add_edge, ht, hf], ?_, ?_, ?_, ?_, rfl, rfl⟩
    · simp [lookupKey_mutateId, ht', Node.add_edge]
    · intro k hk
      cases h2 : d.get k with
      | none =>
        have h2' : lookupKey k d.nodes = none := h2
        simp [lookupKey_mutateId, h2', h2]
      | some p =>
        obtain ⟨i2, n2⟩ := p
        have hne : i2 ≠ ti := fun hi => hk ((hWF.id_inj (hi ▸ h2) ht).1)
        have h2' : lookupKey k d.nodes = some (i2, n2) := h2
        simp [lookupKey_mutateId, h2', h2, hne]
    · intro j hj
      cases h2 : d.upgrade j with
      | none =>
        have h2' : lookupId j d.nodes = none := h2
        simp [lookupId_mutateId, h2', h2]
      | some x =>
        have h2' : lookupId j d.nodes = some x := h2
        simp [lookupId_mutateId, h2', h2, hj]
    · simp [lookupId_mutateId, htup, Node.add_edge]

/-! Claim C9: corrected.  The code resolves only `from_key`; an absent
`to_key` alone does not abort the lookup. -/

/-- A graph holding only the key `"B"`. -/
def dagC9 : Dag Nat := (Dag.new : Dag Nat).add "B" 0

/-- Claim C9, counterexample: with `"A"` absent and `"B"` live,
`get_edge_weight "A" "B"` does not abort; it returns the soft-miss sentinel
`-1`, contradicting the claim that the absence of either key is fatal. -/
theorem c9_counterexample :
    dagC9.get "A" = none ∧ (dagC9.get "B").isSome = true ∧
    dagC9.get_edge_weight "A" "B" = some (-1) := by decide

/-- Claim C9 as amended: if `from_key` is absent from the mapping,
`get_edge_weight` is a fatal precondition violation that terminates the
operation rather than returning a value. -/
theorem c9_amended_from_key_fatal (d : Dag α) (t f : String) (hf : d.get f = none) :
    d.get_edge_weight t f = none := by
  simp [Dag.get_edge_weight, hf]

/-- Witness for the amended claim C9 at a concrete input. -/
theorem c9_amended_from_key_fatal_witness :
    ((Dag.new : Dag Nat).get "B" = none) ∧
    (Dag.new : Dag Nat).get_edge_weight "A" "B" = none :=
  ⟨by decide, c9_amended_from_key_fatal _ "A" "B" (by decide)⟩

/-- A graph with payload 1 under the key `"A"`. -/
def dagW6 : Dag Nat := (Dag.new : Dag Nat).add "A" 1

/-- Witness for claim C6 at a concrete input. -/
theorem c6_update_in_place_witness :
    (dagW6.update "A" 2).get "A" = some (0, ⟨"A", 2, []⟩) ∧
    (dagW6.update "A" 2).invalidated = insertSet "A" dagW6.invalidated ∧
    (∀ k2, k2 ≠ "A" → (dagW6.update "A" 2).get k2 = dagW6.get k2) ∧
    (dagW6.update "A" 2).upgrade 0 = some ⟨"A", 2, []⟩ ∧
    (dagW6.update "A" 2).nextId = dagW6.nextId :=
  (c6_update_in_place dagW6 (by decide) "A" 2).1 0 ⟨"A", 1, []⟩ (by decide)

/-- A graph with nodes under `"T"` and `"F"`. -/
def dagW8 : Dag Nat := ((Dag.new : Dag Nat).add "T" 5).add "F" 6

/-- Witness for claim C8 at a concrete input. -/
theorem c8_add_edge_spec_witness :
    ∃ d2, dagW8.add_edge "T" "F" = some d2 ∧
      d2.get "T" = some (0, ⟨"T", 5, [] ++ [⟨1, 1⟩]⟩) ∧
      (∀ k, k ≠ "T" → d2.get k = dagW8.get k) ∧
      (∀ j, j ≠ 0 → d2.upgrade j = dagW8.upgrade j) ∧
      d2.upgrade 0 = some ⟨"T", 5, [] ++ [⟨1, 1⟩]⟩ ∧
      d2.invalidated = dagW8.invalidated ∧ d2.nextId = dagW8.nextId :=
  (c8_add_edge_spec dagW8 (by decide) "T" "F").2 0 ⟨"T", 5, []⟩ 1 ⟨"F", 6, []⟩
    (by decide) (by decide)

/-! Claim C5: identity-based back-references never retarget to a key reuse. -/

/-- The operations of the public API, for stating properties over arbitrary
subsequent call sequences.  A fatal `add_edge` leaves the graph as at the
abort point, as does a fatal or fuel-starved `dispatch`. -/
inductive Op (α : Type) where
  | add (key : String) (data : α)
  | update (key : String) (data : α)
  | remove (key : String)
  | add_edge (to_key from_key : String)
  | dispatch (fuel : Nat)

/-- Effect of one API call on the graph state. -/
def applyOp (d : Dag α) : Op α → Dag α
  | .add k v => d.add k v
  | .update k v => d.update k v
  | .remove k => (d.remove k).1
  | .add_edge t f => (d.add_edge t f).getD d
  | .dispatch fuel =>
    match d.dispatch fuel with
    | .ok d2 _ => d2
    | _ => d

/-- Effect of a sequence of API calls on the graph state. -/
def applyOps (d : Dag α) (ops : List (Op α)) : Dag α := ops.foldl applyOp d

/-- A retired allocation identity: below the counter and no longer owned. -/
def deadBelow (d : Dag α) (i : Nat) : Prop :=
  i < d.nextId ∧ d.upgrade i = none

theorem add_edge_inv {d d2 : Dag α} {t f : String} (h : d.add_edge t f = some d2) :
    ∃ ti tn fi fn, d.get t = some (ti, tn) ∧ d.get f = some (fi, fn) ∧
      d2 = { d with nodes := mutateId ti (fun n => n.add_edge fi 1) d.nodes } := by
  unfold Dag.add_edge at h
  cases hgt : d.get t with
  | none => rw [hgt] at h; cases h
  | some p =>
    obtain ⟨ti, tn⟩ := p
    rw [hgt] at h
    cases hgf : d.get f with
    | none => rw [hgf] at h; cases h
    | some q =>
      obtain ⟨fi, fn⟩ := q
      rw [hgf] at h
      cases h
      exact ⟨ti, tn, fi, fn, rfl, rfl, rfl⟩

theorem dispatch_ok_inv {d d2 : Dag α} {fuel : Nat} {calls : List String}
    (h : d.dispatch fuel = .ok d2 calls) : d2 = { d with invalidated := [] } := by
  unfold Dag.dispatch at h
  cases hr : dispatchRoots d fuel d.invalidated with
  | ok c => rw [hr] at h; cases h; rfl
  | fatal => rw [hr] at h; cases h
  | fuelOut => rw [hr] at h; cases h

theorem lookupId_none_mutateId {i j : Nat} {f : Node α → Node α}
    {l : List (String × Nat × Node α)} (h : lookupId i l = none) :
    lookupId i (mutateId j f l) = none := by
  rw [lookupId_mutateId, h]
  rfl

theorem deadBelow_applyOp {d : Dag α} {i : Nat} (h : deadBelow d i) (op : Op α) :
    deadBelow (applyOp d op) i := by
  obtain ⟨hlt, hdead⟩ := h
  have hdead' : lookupId i d.nodes = none := hdead
  cases op with
  | add k v =>
    constructor
    · simp only [applyOp, Dag.add]
      omega
    · have hhead : d.nextId ≠ i := by omega
      simp only [applyOp, Dag.add, Dag.upgrade_mk, lookupId, hhead, if_false]
      rw [lookupId_eq_none_iff]
      intro e he
      exact (lookupId_eq_none_iff.mp hdead') e (mem_eraseKey.mp he).1
  | update k v =>
    cases hg : d.get k with
    | none =>
      simp only [applyOp, Dag.update, hg]
      exact ⟨hlt, hdead⟩
    | some p =>
      obtain ⟨j, m⟩ := p
      simp only [applyOp, Dag.update, hg]
      exact ⟨hlt, lookupId_none_mutateId hdead'⟩
  | remove k =>
    constructor
    · exact hlt
    · simp only [applyOp, Dag.remove, Dag.upgrade_mk]
      rw [lookupId_eq_none_iff]
      intro e he
      exact (lookupId_eq_none_iff.mp hdead') e (mem_eraseKey.mp he).1
  | add_edge t f =>
    cases hg : d.add_edge t f with
    | none => simp only [applyOp, hg, Option.getD]; exact ⟨hlt, hdead⟩
    | some d2 =>
      obtain ⟨ti, tn, fi, fn, _, _, hd2⟩ := add_edge_inv hg
      subst hd2
      simp only [applyOp, hg, Option.getD]
      exact ⟨hlt, lookupId_none_mutateId hdead'⟩
  | dispatch fuel =>
    cases hg : d.dispatch fuel with
    | ok d2 calls =>
      have := dispatch_ok_inv hg
      subst this
      simp only [applyOp, hg]
      exact ⟨hlt, hdead⟩
    | fatal => simp only [applyOp, hg]; exact ⟨hlt, hdead⟩
    | fuelOut => simp only [applyOp, hg]; exact ⟨hlt, hdead⟩

theorem deadBelow_applyOps {d : Dag α} {i : Nat} (h : deadBelow d i)
    (ops : List (Op α)) : deadBelow (applyOps d ops) i := by
  induction ops generalizing d with
  | nil => exact h
  | cons op rest ih => exact ih (deadBelow_applyOp h op)

/-- Claim C5: if an edge was created targeting the allocation that was live
under key `k`, and a later `add k v2` replaced that node, then after any
sequence of further API calls the back-reference of that edge upgrades to
nothing: it is fatal to resolve it, and it never reaches the replacement
node, because the reference is identity-based, not key-based. -/
theorem c5_replaced_node_edges_dangle (d : Dag α) (hWF : WF d) (k : String) (v2 : α)
    (i : Nat) (n : Node α) (hk : d.get k = some (i, n)) (e : Edge)
    (he : e.to_node = i) (ops : List (Op α)) :
    (applyOps (d.add k v2) ops).upgrade e.to_node = none := by
  subst he
  refine (deadBelow_applyOps ⟨?_, ?_⟩ ops).2
  · have := hWF.get_id_lt hk
    simp only [Dag.add]
    omega
  · have hlt := hWF.get_id_lt hk
    have hhead : d.nextId ≠ e.to_node := by omega
    simp only [Dag.add, Dag.upgrade_mk, lookupId, hhead, if_false]
    rw [lookupId_eq_none_iff]
    intro f hf hfi
    have hmem := mem_eraseKey.mp hf
    have hids : (d.nodes.map (fun e2 => e2.2.1)).Nodup := hWF.2.1
    have heq := List.inj_on_of_nodup_map hids hmem.1 (lookupKey_mem hk)
      (by simpa using hfi)
    exact hmem.2 (by rw [heq])

/-! Claim C1: corrected.  The directional mismatch is real — the new edge
lands on the node of `to_key` while the lookup scans the node of `from_key`
— but the claimed `-1` result additionally needs every edge already on the
node of `from_key` to upgrade: the scan is fatal on a dangling edge, and a
dangling edge has no current key, so it satisfies the stated hypothesis. -/

/-- Bool form of the hypothesis of claim C1: no edge of the node at `f`
upgrades to a node whose current key is `t` (an edge whose upgrade fails has
no current key and therefore passes the check). -/
def noEdgeToKey (d : Dag α) (f t : String) : Bool :=
  match d.get f with
  | none => true
  | some (_, n) => n.edges.all (fun e =>
      match d.upgrade e.to_node with
      | none => true
      | some x => decide (x.key ≠ t))

/-- A graph where `"F"` and `"T"` are live and the node at `"F"` carries one
dangling edge (its target `"X"` was removed). -/
def dagC1 : Dag Nat :=
  let d0 := ((Dag.new : Dag Nat).add "F" 0).add "X" 0
  let d1 := (d0.add_edge "F" "X").getD d0
  ((d1.remove "X").1).add "T" 0

/-- Claim C1, counterexample: `"T"` and `"F"` are distinct live keys and no
edge of the node at `"F"` has a target whose current key is `"T"`, yet after
`add_edge "T" "F"` the lookup `get_edge_weight "T" "F"` does not return
`-1`: the node at `"F"` carries a dangling edge, whose upgrade during the
scan is fatal. -/
theorem c1_counterexample :
    ("T" : String) ≠ "F" ∧
    (dagC1.get "T").isSome = true ∧ (dagC1.get "F").isSome = true ∧
    noEdgeToKey dagC1 "F" "T" = true ∧
    (dagC1.add_edge "T" "F").isSome = true ∧
    ((dagC1.add_edge "T" "F").getD dagC1).get_edge_weight "T" "F" = none := by
  decide

theorem findWeight_all_miss (d : Dag α) (t : String) (es : List Edge)
    (h : ∀ e ∈ es, ∃ x, d.upgrade e.to_node = some x ∧ x.key ≠ t) :
    findWeight d t es = some (-1) := by
  induction es with
  | nil => rfl
  | cons e rest ih =>
    obtain ⟨x, hx, hk⟩ := h e (List.mem_cons_self _ _)
    rw [findWeight, hx]
    simp only [hk, if_false]
    exact ih (fun e2 he2 => h e2 (List.mem_cons_of_mem _ he2))

/-- Claim C1 as amended: if moreover every edge already on the node of
`from_key` upgrades (to a node whose current key is not `to_key`), then
after `add_edge t f` the lookup `get_edge_weight t f` returns `-1`: the new
edge is stored on the node of `t`, and the lookup scans only the edge list
of the node of `f`, which does not contain it. -/
theorem c1_amended_lookup_misses_new_edge (d : Dag α) (hWF : WF d) (t f : String)
    (hne : t ≠ f) (ti fi : Nat) (tn fn : Node α)
    (ht : d.get t = some (ti, tn)) (hf : d.get f = some (fi, fn))
    (hres : ∀ e ∈ fn.edges, ∃ x, d.upgrade e.to_node = some x ∧ x.key ≠ t) :
    ∃ d2, d.add_edge t f = some d2 ∧ d2.get_edge_weight t f = some (-1) := by
  have hf' : lookupKey f d.nodes = some (fi, fn) := hf
  have hfi : fi ≠ ti := by
    intro hi
    have hf2 : d.get f = some (ti, fn) := hi ▸ hf
    exact hne (hWF.id_inj ht hf2).1
  refine ⟨{ d with nodes := mutateId ti (fun n => n.add_edge fi 1) d.nodes },
    by simp [Dag.add_edge, ht, hf], ?_⟩
  have hget : ({ d with nodes := mutateId ti (fun n => n.add_edge fi 1) d.nodes}).get f
      = some (fi, fn) := by
    simp [lookupKey_mutateId, hf', hfi]
  rw [Dag.get_edge_weight, hget]
  apply findWeight_all_miss
  intro e he
  obtain ⟨x, hx, hk⟩ := hres e he
  have hx' : lookupId e.to_node d.nodes = some x := hx
  by_cases hti : e.to_node = ti
  · refine ⟨x.add_edge fi 1, ?_, ?_⟩
    · show lookupId e.to_node (mutateId ti _ d.nodes) = _
      rw [lookupId_mutateId, hx']
      simp [hti]
    · simpa [Node.add_edge] using hk
  · refine ⟨x, ?_, hk⟩
    show lookupId e.to_node (mutateId ti _ d.nodes) = _
    rw [lookupId_mutateId, hx']
    simp [hti]

/-- A graph with live keys `"T"` and `"F"` and no edges. -/
def dagW1 : Dag Nat := ((Dag.new : Dag Nat).add "T" 0).add "F" 0

/-- Witness for the amended claim C1 at a concrete input. -/
theorem c1_amended_lookup_misses_new_edge_witness :
    ∃ d2, dagW1.add_edge "T" "F" = some d2 ∧
      d2.get_edge_weight "T" "F" = some (-1) :=
  c1_amended_lookup_misses_new_edge dagW1 (by decide) "T" "F" (by decide)
    0 1 ⟨"T", 0, []⟩ ⟨"F", 0, []⟩ (by decide) (by decide) (by simp)

/-- A graph with payload 1 under the key `"K"`. -/
def dagW5 : Dag Nat := (Dag.new : Dag Nat).add "K" 1

/-- Witness for claim C5 at a concrete input. -/
theorem c5_replaced_node_edges_dangle_witness :
    (applyOps (dagW5.add "K" 2) [Op.add "Z" 9, Op.update "K" 3]).upgrade
      (Edge.mk 1 0).to_node = none :=
  c5_replaced_node_edges_dangle dagW5 (by decide) "K" 2 0 ⟨"K", 1, []⟩ (by decide)
    ⟨1, 0⟩ rfl [Op.add "Z" 9, Op.update "K" 3]

/-! Traversal lemmas.  `trav` abstracts the recursive call of `goEdges`;
each lemma about `goEdges` takes the corresponding property of `trav` as a
hypothesis and is then instantiated with `traverseFuel` by induction on the
fuel. -/

theorem Reach.trans {d : Dag α} {a b c : String} (h1 : Reach d a b) :
    Reach d b c → Reach d a c := by
  induction h1 with
  | refl a => exact id
  | step he hr ih => exact fun h2 => Reach.step he (ih h2)

theorem Reach.mem_closed {d : Dag α} {S : List String}
    (hS : ∀ x ∈ S, ∀ y, edgeTo d x y → y ∈ S) {a x : String}
    (h : Reach d a x) : a ∈ S → x ∈ S := by
  induction h with
  | refl a => exact id
  | step he hr ih => exact fun ha => ih (hS _ ha _ he)

theorem goEdges_shape {d : Dag α} {trav : Node α → List String → TRes}
    (Ht : ∀ n v v2 c2, trav n v = .ok v2 c2 → v2 = c2.reverse ++ v) :
    ∀ (es : List Edge) (v c v2 c2 : List String),
      goEdges d trav es v c = .ok v2 c2 →
      ∃ cN, c2 = c ++ cN ∧ v2 = cN.reverse ++ v := by
  intro es
  induction es with
  | nil =>
    intro v c v2 c2 h
    simp only [goEdges] at h
    cases h
    exact ⟨[], by simp, by simp⟩
  | cons e rest ih =>
    intro v c v2 c2 h
    simp only [goEdges] at h
    cases hup : d.upgrade e.to_node with
    | none => simp only [hup] at h; cases h
    | some tn =>
      simp only [hup] at h
      cases htr : trav tn v with
      | ok v1 c1 =>
        simp only [htr] at h
        obtain ⟨cN, hc, hv⟩ := ih _ _ _ _ h
        refine ⟨c1 ++ cN, by simp [hc], ?_⟩
        rw [hv, Ht _ _ _ _ htr]
        simp
      | fatal => simp only [htr] at h; cases h
      | fuelOut => simp only [htr] at h; cases h

theorem traverseFuel_shape {d : Dag α} :
    ∀ (fuel : Nat) (n : Node α) (v v2 c2 : List String),
      traverseFuel d fuel n v = .ok v2 c2 → v2 = c2.reverse ++ v := by
  intro fuel
  induction fuel with
  | zero => intro n v v2 c2 h; simp only [traverseFuel] at h; cases h
  | succ fuel ih =>
    intro n v v2 c2 h
    simp only [traverseFuel] at h
    by_cases hm : n.key ∈ v
    · rw [if_pos hm] at h
      cases h
      simp
    · rw [if_neg hm] at h
      obtain ⟨cN, hc, hv⟩ := goEdges_shape (fun n2 v0 v2b c2b => ih n2 v0 v2b c2b)
        _ _ _ _ _ h
      rw [hv, hc]
      simp

theorem traverseFuel_mem_iff {d : Dag α} {fuel : Nat} {n : Node α}
    {v v2 c2 : List String} (h : traverseFuel d fuel n v = .ok v2 c2) :
    ∀ x, x ∈ v2 ↔ x ∈ c2 ∨ x ∈ v := by
  intro x
  rw [traverseFuel_shape _ _ _ _ _ h]
  simp

theorem traverseFuel_subset {d : Dag α} {fuel : Nat} {n : Node α}
    {v v2 c2 : List String} (h : traverseFuel d fuel n v = .ok v2 c2) :
    ∀ x ∈ v, x ∈ v2 := by
  intro x hx
  exact (traverseFuel_mem_iff h x).mpr (Or.inr hx)

theorem traverseFuel_self_mem {d : Dag α} {fuel : Nat} {n : Node α}
    {v v2 c2 : List String} (h : traverseFuel d fuel n v = .ok v2 c2) :
    n.key ∈ v2 := by
  cases fuel with
  | zero => simp only [traverseFuel] at h; cases h
  | succ fuel =>
    simp only [traverseFuel] at h
    by_cases hm : n.key ∈ v
    · rw [if_pos hm] at h
      cases h
      exact hm
    · rw [if_neg hm] at h
      obtain ⟨cN, hc, hv⟩ := goEdges_shape
        (fun n2 v0 v2b c2b => traverseFuel_shape fuel n2 v0 v2b c2b) _ _ _ _ _ h
      rw [hv]
      simp

theorem goEdges_nodup {d : Dag α} {trav : Node α → List String → TRes}
    (Ht : ∀ n v v2 c2, trav n v = .ok v2 c2 → v.Nodup → v2.Nodup) :
    ∀ (es : List Edge) (v c v2 c2 : List String),
      goEdges d trav es v c = .ok v2 c2 → v.Nodup → v2.Nodup := by
  intro es
  induction es with
  | nil =>
    intro v c v2 c2 h hv
    simp only [goEdges] at h
    cases h
    exact hv
  | cons e rest ih =>
    intro v c v2 c2 h hv
    simp only [goEdges] at h
    cases hup : d.upgrade e.to_node with
    | none => simp only [hup] at h; cases h
    | some tn =>
      simp only [hup] at h
      cases htr : trav tn v with
      | ok v1 c1 =>
        simp only [htr] at h
        exact ih _ _ _ _ h (Ht _ _ _ _ htr hv)
      | fatal => simp only [htr] at h; cases h
      | fuelOut => simp only [htr] at h; cases h

theorem traverseFuel_nodup {d : Dag α} :
    ∀ (fuel : Nat) (n : Node α) (v v2 c2 : List String),
      traverseFuel d fuel n v = .ok v2 c2 → v.Nodup → v2.Nodup := by
  intro fuel
  induction fuel with
  | zero => intro n v v2 c2 h hv; simp only [traverseFuel] at h; cases h
  | succ fuel ih =>
    intro n v v2 c2 h hv
    simp only [traverseFuel] at h
    by_cases hm : n.key ∈ v
    · rw [if_pos hm] at h
      cases h
      exact hv
    · rw [if_neg hm] at h
      exact goEdges_nodup (fun n2 v0 v2b c2b => ih n2 v0 v2b c2b) _ _ _ _ _ h
        (List.nodup_cons.mpr ⟨hm, hv⟩)

theorem traverseFuel_calls_nodup {d : Dag α} {fuel : Nat} {n : Node α}
    {v v2 c2 : List String} (h : traverseFuel d fuel n v = .ok v2 c2)
    (hv : v.Nodup) : c2.Nodup ∧ ∀ x ∈ c2, x ∉ v := by
  have h2 := traverseFuel_nodup fuel n v v2 c2 h hv
  rw [traverseFuel_shape _ _ _ _ _ h, List.nodup_append] at h2
  exact ⟨List.nodup_reverse.mp h2.1,
    fun x hx hxv => h2.2.2 (List.mem_reverse.mpr hx) hxv⟩

/-! Soundness: every key in the call list of a traversal is reachable from
the key of the root node. -/

theorem goEdges_sound {d : Dag α} {trav : Node α → List String → TRes} {root : String}
    (hWF : WF d)
    (Ht : ∀ n v v2 c2, (∃ i, d.get n.key = some (i, n)) → trav n v = .ok v2 c2 →
      ∀ x ∈ c2, Reach d n.key x) :
    ∀ (es : List Edge) (v c v2 c2 : List String),
      (∀ e ∈ es, ∀ tn, d.upgrade e.to_node = some tn → Reach d root tn.key) →
      goEdges d trav es v c = .ok v2 c2 →
      (∀ x ∈ c, Reach d root x) → ∀ x ∈ c2, Reach d root x := by
  intro es
  induction es with
  | nil =>
    intro v c v2 c2 hes h hc
    simp only [goEdges] at h
    cases h
    exact hc
  | cons e rest ih =>
    intro v c v2 c2 hes h hc
    simp only [goEdges] at h
    cases hup : d.upgrade e.to_node with
    | none => simp only [hup] at h; cases h
    | some tn =>
      simp only [hup] at h
      cases htr : trav tn v with
      | ok v1 c1 =>
        simp only [htr] at h
        have hlive : ∃ i, d.get tn.key = some (i, tn) :=
          ⟨e.to_node, hWF.upgrade_get hup⟩
        have hreach : Reach d root tn.key := hes e (List.mem_cons_self _ _) tn hup
        refine ih _ _ _ _ (fun e2 he2 => hes e2 (List.mem_cons_of_mem _ he2)) h ?_
        intro x hx
        rcases List.mem_append.mp hx with hx | hx
        · exact hc x hx
        · exact hreach.trans (Ht tn v v1 c1 hlive htr x hx)
      | fatal => simp only [htr] at h; cases h
      | fuelOut => simp only [htr] at h; cases h

theorem traverseFuel_sound {d : Dag α} (hWF : WF d) :
    ∀ (fuel : Nat) (n : Node α) (v v2 c2 : List String),
      (∃ i, d.get n.key = some (i, n)) →
      traverseFuel d fuel n v = .ok v2 c2 → ∀ x ∈ c2, Reach d n.key x := by
  intro fuel
  induction fuel with
  | zero => intro n v v2 c2 _ h; simp only [traverseFuel] at h; cases h
  | succ fuel ih =>
    intro n v v2 c2 hlive h
    simp only [traverseFuel] at h
    by_cases hm : n.key ∈ v
    · rw [if_pos hm] at h
      cases h
      intro x hx
      cases hx
    · rw [if_neg hm] at h
      obtain ⟨i, hi⟩ := hlive
      refine goEdges_sound hWF (fun n2 v0 v2b c2b => ih n2 v0 v2b c2b)
        _ _ _ _ _ ?_ h ?_
      · intro e he tn hup
        exact Reach.step ⟨i, n, hi, e, he, tn, hup, rfl⟩ (Reach.refl _)
      · intro x hx
        rcases List.mem_singleton.mp hx with rfl
        exact Reach.refl _

/-! Completeness: an `ok` traversal result is closed under the edge
relation away from the initial visited set, every processed edge target
lands in the final visited set, and every key processed during an `ok`
traversal had all its edges upgraded. -/

theorem goEdges_closed {d : Dag α} {trav : Node α → List String → TRes}
    (hWF : WF d)
    (Hshape : ∀ n v v2 c2, trav n v = .ok v2 c2 → v2 = c2.reverse ++ v)
    (Hmem : ∀ n v v2 c2, trav n v = .ok v2 c2 → n.key ∈ v2)
    (Hclosed : ∀ n v v2 c2, (∃ i, d.get n.key = some (i, n)) → trav n v = .ok v2 c2 →
      ∀ x ∈ v2, x ∉ v → ∀ y, edgeTo d x y → y ∈ v2) :
    ∀ (es : List Edge) (v c v2 c2 : List String),
      goEdges d trav es v c = .ok v2 c2 →
      (∀ e ∈ es, ∃ tn, d.upgrade e.to_node = some tn ∧ tn.key ∈ v2) ∧
      (∀ x ∈ v2, x ∉ v → ∀ y, edgeTo d x y → y ∈ v2) ∧
      (∀ x ∈ v, x ∈ v2) := by
  intro es
  induction es with
  | nil =>
    intro v c v2 c2 h
    simp only [goEdges] at h
    cases h
    exact ⟨fun e he => absurd he (List.not_mem_nil e),
      fun x hx hnx => absurd hx hnx, fun x hx => hx⟩
  | cons e rest ih =>
    intro v c v2 c2 h
    simp only [goEdges] at h
    cases hup : d.upgrade e.to_node with
    | none => simp only [hup] at h; cases h
    | some tn =>
      simp only [hup] at h
      cases htr : trav tn v with
      | ok v1 c1 =>
        simp only [htr] at h
        obtain ⟨hbr, hcr, hmr⟩ := ih _ _ _ _ h
        have hlive : ∃ i, d.get tn.key = some (i, tn) :=
          ⟨e.to_node, hWF.upgrade_get hup⟩
        have hmono1 : ∀ x ∈ v, x ∈ v1 := by
          intro x hx
          rw [Hshape _ _ _ _ htr]
          simp [hx]
        refine ⟨?_, ?_, fun x hx => hmr _ (hmono1 x hx)⟩
        · intro e2 he2
          rcases List.mem_cons.mp he2 with rfl | he2
          · exact ⟨tn, hup, hmr _ (Hmem _ _ _ _ htr)⟩
          · exact hbr e2 he2
        · intro x hx hnx y hxy
          by_cases hx1 : x ∈ v1
          · exact hmr _ (Hclosed tn v v1 c1 hlive htr x hx1 hnx y hxy)
          · exact hcr x hx hx1 y hxy
      | fatal => simp only [htr] at h; cases h
      | fuelOut => simp only [htr] at h; cases h

theorem traverseFuel_closed {d : Dag α} (hWF : WF d) :
    ∀ (fuel : Nat) (n : Node α) (v v2 c2 : List String),
      (∃ i, d.get n.key = some (i, n)) →
      traverseFuel d fuel n v = .ok v2 c2 →
      ∀ x ∈ v2, x ∉ v → ∀ y, edgeTo d x y → y ∈ v2 := by
  intro fuel
  induction fuel with
  | zero => intro n v v2 c2 _ h; simp only [traverseFuel] at h; cases h
  | succ fuel ih =>
    intro n v v2 c2 hlive h
    simp only [traverseFuel] at h
    by_cases hm : n.key ∈ v
    · rw [if_pos hm] at h
      cases h
      intro x hx hnx
      exact absurd hx hnx
    · rw [if_neg hm] at h
      obtain ⟨i, hi⟩ := hlive
      obtain ⟨hb, hcl, hmono⟩ := goEdges_closed hWF
        (fun n2 v0 v2b c2b => traverseFuel_shape fuel n2 v0 v2b c2b)
        (fun n2 v0 v2b c2b htr => traverseFuel_self_mem htr)
        (fun n2 v0 v2b c2b hl htr => ih n2 v0 v2b c2b hl htr) _ _ _ _ _ h
      intro x hx hnx y hxy
      by_cases hxn : x = n.key
      · subst hxn
        obtain ⟨i2, n2, hget2, e, he, tn, hup, hkey⟩ := hxy
        rw [hi] at hget2
        cases hget2
        obtain ⟨tn2, hup2, hmem2⟩ := hb e he
        rw [hup] at hup2
        cases hup2
        exact hkey ▸ hmem2
      · refine hcl x hx ?_ y hxy
        intro hc
        rcases List.mem_cons.mp hc with hc | hc
        · exact hxn hc
        · exact hnx hc

theorem traverseFuel_complete {d : Dag α} (hWF : WF d) {fuel : Nat} {n : Node α}
    {v2 c2 : List String} {i : Nat} (hi : d.get n.key = some (i, n))
    (h : traverseFuel d fuel n [] = .ok v2 c2) :
    ∀ x, Reach d n.key x → x ∈ v2 := by
  intro x hr
  exact Reach.mem_closed
    (fun a ha y hay =>
      traverseFuel_closed hWF fuel n [] v2 c2 ⟨i, hi⟩ h a ha (List.not_mem_nil a) y hay)
    hr (traverseFuel_self_mem h)

theorem goEdges_resolves {d : Dag α} {trav : Node α → List String → TRes}
    (hWF : WF d)
    (Hres : ∀ n v v2 c2, (∃ i, d.get n.key = some (i, n)) → trav n v = .ok v2 c2 →
      ∀ y ∈ v2, y ∉ v → resolvesAll d y) :
    ∀ (es : List Edge) (v c v2 c2 : List String),
      goEdges d trav es v c = .ok v2 c2 →
      (∀ e ∈ es, ∃ tn, d.upgrade e.to_node = some tn) ∧
      (∀ y ∈ v2, y ∉ v → resolvesAll d y) := by
  intro es
  induction es with
  | nil =>
    intro v c v2 c2 h
    simp only [goEdges] at h
    cases h
    exact ⟨fun e he => absurd he (List.not_mem_nil e), fun y hy hny => absurd hy hny⟩
  | cons e rest ih =>
    intro v c v2 c2 h
    simp only [goEdges] at h
    cases hup : d.upgrade e.to_node with
    | none => simp only [hup] at h; cases h
    | some tn =>
      simp only [hup] at h
      cases htr : trav tn v with
      | ok v1 c1 =>
        simp only [htr] at h
        obtain ⟨hbr, hyr⟩ := ih _ _ _ _ h
        have hlive : ∃ i, d.get tn.key = some (i, tn) :=
          ⟨e.to_node, hWF.upgrade_get hup⟩
        refine ⟨?_, ?_⟩
        · intro e2 he2
          rcases List.mem_cons.mp he2 with rfl | he2
          · exact ⟨tn, hup⟩
          · exact hbr e2 he2
        · intro y hy hny
          by_cases hy1 : y ∈ v1
          · exact Hres tn v v1 c1 hlive htr y hy1 hny
          · exact hyr y hy hy1
      | fatal => simp only [htr] at h; cases h
      | fuelOut => simp only [htr] at h; cases h

theorem traverseFuel_resolves {d : Dag α} (hWF : WF d) :
    ∀ (fuel : Nat) (n : Node α) (v v2 c2 : List String),
      (∃ i, d.get n.key = some (i, n)) →
      traverseFuel d fuel n v = .ok v2 c2 →
      ∀ y ∈ v2, y ∉ v → resolvesAll d y := by
  intro fuel
  induction fuel with
  | zero => intro n v v2 c2 _ h; simp only [traverseFuel] at h; cases h
  | succ fuel ih =>
    intro n v v2 c2 hlive h
    simp only [traverseFuel] at h
    by_cases hm : n.key ∈ v
    · rw [if_pos hm] at h
      cases h
      intro y hy hny
      exact absurd hy hny
    · rw [if_neg hm] at h
      obtain ⟨i, hi⟩ := hlive
      obtain ⟨hb, hyr⟩ := goEdges_resolves hWF
        (fun n2 v0 v2b c2b hl htr => ih n2 v0 v2b c2b hl htr) _ _ _ _ _ h
      intro y hy hny
      by_cases hyn : y = n.key
      · subst hyn
        intro i2 n2 hget2 e he
        rw [hi] at hget2
        cases hget2
        exact hb e he
      · refine hyr y hy ?_
        intro hc
        rcases List.mem_cons.mp hc with hc | hc
        · exact hyn hc
        · exact hny hc

/-! Fuel sufficiency: one more unit of fuel than the number of live keys not
yet visited rules out fuel exhaustion. -/

/-- Number of live keys not yet visited. -/
def freshCount (d : Dag α) (v : List String) : Nat :=
  (liveKeys d).countP (fun k => decide (k ∉ v))

theorem countP_lt_of_flip {l : List String} {p q : String → Bool}
    (hpq : ∀ a ∈ l, p a = true → q a = true) {k : String} (hk : k ∈ l)
    (hpk : p k = false) (hqk : q k = true) : l.countP p < l.countP q := by
  induction l with
  | nil => cases hk
  | cons a rest ih =>
    rw [List.countP_cons, List.countP_cons]
    rcases List.mem_cons.mp hk with rfl | hk2
    · have hle : rest.countP p ≤ rest.countP q :=
        List.countP_mono_left (fun b hb => hpq b (List.mem_cons_of_mem _ hb))
      simp only [hpk, hqk]
      simp
      omega
    · have hle1 : (if p a = true then 1 else 0) ≤ (if q a = true then 1 else 0) := by
        by_cases hpa : p a = true
        · simp [hpa, hpq a (List.mem_cons_self _ _) hpa]
        · simp [hpa]
      have hlt := ih (fun b hb => hpq b (List.mem_cons_of_mem _ hb)) hk2
      omega

theorem freshCount_le {d : Dag α} {v w : List String} (hsub : ∀ x ∈ v, x ∈ w) :
    freshCount d w ≤ freshCount d v := by
  refine List.countP_mono_left ?_
  intro a _ h
  simp only [decide_eq_true_eq] at h ⊢
  exact fun hv => h (hsub _ hv)

theorem freshCount_cons_lt {d : Dag α} {k : String} {v : List String}
    (hk : k ∈ liveKeys d) (hnv : k ∉ v) :
    freshCount d (k :: v) < freshCount d v := by
  refine countP_lt_of_flip ?_ hk ?_ ?_
  · intro a _ h
    simp only [decide_eq_true_eq] at h ⊢
    exact fun hav => h (List.mem_cons_of_mem _ hav)
  · simp
  · simp [hnv]

theorem goEdges_no_fuelOut {d : Dag α} {trav : Node α → List String → TRes} {N : Nat}
    (hWF : WF d)
    (Hshape : ∀ n v v2 c2, trav n v = .ok v2 c2 → v2 = c2.reverse ++ v)
    (Hnf : ∀ n v, (∃ i, d.get n.key = some (i, n)) → freshCount d v < N →
      trav n v ≠ .fuelOut) :
    ∀ (es : List Edge) (v c : List String), freshCount d v < N →
      goEdges d trav es v c ≠ .fuelOut := by
  intro es
  induction es with
  | nil =>
    intro v c _ h
    simp only [goEdges] at h
    cases h
  | cons e rest ih =>
    intro v c hfc h
    simp only [goEdges] at h
    cases hup : d.upgrade e.to_node with
    | none => simp only [hup] at h; cases h
    | some tn =>
      simp only [hup] at h
      cases htr : trav tn v with
      | ok v1 c1 =>
        simp only [htr] at h
        refine ih _ _ ?_ h
        have hsub : ∀ x ∈ v, x ∈ v1 := by
          intro x hx
          rw [Hshape _ _ _ _ htr]
          simp [hx]
        have := freshCount_le (d := d) hsub
        omega
      | fatal => simp only [htr] at h; cases h
      | fuelOut =>
        exact absurd htr (Hnf tn v ⟨e.to_node, hWF.upgrade_get hup⟩ hfc)

theorem traverseFuel_no_fuelOut {d : Dag α} (hWF : WF d) :
    ∀ (fuel : Nat) (n : Node α) (v : List String),
      (∃ i, d.get n.key = some (i, n)) → freshCount d v < fuel →
      traverseFuel d fuel n v ≠ .fuelOut := by
  intro fuel
  induction fuel with
  | zero => intro n v _ hfc; exact absurd hfc (Nat.not_lt_zero _)
  | succ fuel ih =>
    intro n v hlive hfc h
    simp only [traverseFuel] at h
    by_cases hm : n.key ∈ v
    · rw [if_pos hm] at h; cases h
    · rw [if_neg hm] at h
      have hkmem : n.key ∈ liveKeys d := by
        obtain ⟨i, hi⟩ := hlive
        show n.key ∈ d.nodes.map (fun e => e.1)
        exact List.mem_map.mpr ⟨(n.key, i, n), lookupKey_mem hi, rfl⟩
      have hlt : freshCount d (n.key :: v) < fuel := by
        have h1 := freshCount_cons_lt (d := d) hkmem hm
        omega
      exact goEdges_no_fuelOut hWF
        (fun n2 v0 v2b c2b => traverseFuel_shape fuel n2 v0 v2b c2b)
        (fun n2 v0 hl hf => ih n2 v0 hl hf) _ _ _ hlt h

theorem goEdges_no_fatal {d : Dag α} {trav : Node α → List String → TRes}
    {root : String} (hWF : WF d)
    (hroot : ∀ x, Reach d root x → resolvesAll d x)
    (Hnf : ∀ n v, (∃ i, d.get n.key = some (i, n)) →
      (∀ x, Reach d n.key x → resolvesAll d x) → trav n v ≠ .fatal) :
    ∀ (es : List Edge) (v c : List String),
      (∀ e ∈ es, ∃ tn, d.upgrade e.to_node = some tn ∧ Reach d root tn.key) →
      goEdges d trav es v c ≠ .fatal := by
  intro es
  induction es with
  | nil =>
    intro v c _ h
    simp only [goEdges] at h
    cases h
  | cons e rest ih =>
    intro v c hes h
    simp only [goEdges] at h
    obtain ⟨tn, hup, hrtn⟩ := hes e (List.mem_cons_self _ _)
    simp only [hup] at h
    cases htr : trav tn v with
    | ok v1 c1 =>
      simp only [htr] at h
      exact ih _ _ (fun e2 he2 => hes e2 (List.mem_cons_of_mem _ he2)) h
    | fatal =>
      exact absurd htr (Hnf tn v ⟨e.to_node, hWF.upgrade_get hup⟩
        (fun x hx => hroot x (hrtn.trans hx)))
    | fuelOut => simp only [htr] at h; cases h

theorem traverseFuel_no_fatal {d : Dag α} (hWF : WF d) :
    ∀ (fuel : Nat) (n : Node α) (v : List String),
      (∃ i, d.get n.key = some (i, n)) →
      (∀ x, Reach d n.key x → resolvesAll d x) →
      traverseFuel d fuel n v ≠ .fatal := by
  intro fuel
  induction fuel with
  | zero => intro n v _ _ h; simp only [traverseFuel] at h; cases h
  | succ fuel ih =>
    intro n v hlive hres h
    simp only [traverseFuel] at h
    by_cases hm : n.key ∈ v
    · rw [if_pos hm] at h; cases h
    · rw [if_neg hm] at h
      obtain ⟨i, hi⟩ := hlive
      refine goEdges_no_fatal hWF hres
        (fun n2 v0 hl2 hr2 => ih n2 v0 hl2 hr2) _ _ _ ?_ h
      intro e he
      obtain ⟨tn, hup⟩ := hres n.key (Reach.refl _) i n hi e he
      exact ⟨tn, hup, Reach.step ⟨i, n, hi, e, he, tn, hup, rfl⟩ (Reach.refl _)⟩

theorem traverseFuel_ok {d : Dag α} (hWF : WF d) {fuel : Nat} {n : Node α} {i : Nat}
    (hi : d.get n.key = some (i, n))
    (hres : ∀ x, Reach d n.key x → resolvesAll d x)
    (hfuel : d.nodes.length < fuel) :
    ∃ v2 c2, traverseFuel d fuel n [] = .ok v2 c2 := by
  have hfc : freshCount d [] < fuel := by
    have h3 : freshCount d [] ≤ (liveKeys d).length := List.countP_le_length _
    have hlen : (liveKeys d).length = d.nodes.length := List.length_map _ _
    omega
  have h1 := traverseFuel_no_fuelOut hWF fuel n [] ⟨i, hi⟩ hfc
  have h2 := traverseFuel_no_fatal hWF fuel n [] ⟨i, hi⟩ hres
  cases hr : traverseFuel d fuel n [] with
  | ok v c => exact ⟨v, c, rfl⟩
  | fatal => exact absurd hr h2
  | fuelOut => exact absurd hr h1

/-- Executable sufficient condition for the resolution hypotheses: every
edge of every live node upgrades. -/
theorem resolvesAll_of_global (d : Dag α)
    (h : d.nodes.all (fun e => e.2.2.edges.all
      (fun ed => (lookupId ed.to_node d.nodes).isSome)) = true) :
    ∀ x, resolvesAll d x := by
  intro x i n hget e he
  have h1 := List.all_eq_true.mp h _ (lookupKey_mem hget)
  have h2 := List.all_eq_true.mp h1 e he
  obtain ⟨tn, htn⟩ := Option.isSome_iff_exists.mp h2
  exact ⟨tn, htn⟩

/-- A root traversal with a fresh visited set completes and calls back
exactly once per key reachable from the root. -/
theorem traverseFuel_root_spec {d : Dag α} (hWF : WF d) {fuel : Nat} {r : String}
    {i : Nat} {n : Node α} (hget : d.get r = some (i, n))
    (hres : ∀ x, Reach d r x → resolvesAll d x)
    (hfuel : d.nodes.length < fuel) :
    ∃ v c, traverseFuel d fuel n [] = .ok v c ∧ c.Nodup ∧
      (∀ x, x ∈ c ↔ Reach d r x) := by
  have hkey : n.key = r := hWF.get_key hget
  subst hkey
  obtain ⟨v, c, hok⟩ := traverseFuel_ok hWF hget hres hfuel
  refine ⟨v, c, hok, (traverseFuel_calls_nodup hok List.nodup_nil).1, ?_⟩
  intro x
  constructor
  · exact fun hx => traverseFuel_sound hWF fuel n [] v c ⟨i, hget⟩ hok x hx
  · intro hr
    have hv := traverseFuel_complete hWF hget hok x hr
    rcases (traverseFuel_mem_iff hok x).mp hv with hx | hx
    · exact hx
    · cases hx

open Classical in
theorem dispatchRoots_count (d : Dag α) (fuel : Nat) (hWF : WF d)
    (hfuel : d.nodes.length < fuel) :
    ∀ rs : List String, (∀ r ∈ rs, ∀ x, Reach d r x → resolvesAll d x) →
      ∃ calls, dispatchRoots d fuel rs = .ok calls ∧
        ∀ x, calls.count x =
          rs.countP (fun r => decide ((d.get r).isSome = true ∧ Reach d r x)) := by
  intro rs
  induction rs with
  | nil => exact fun _ => ⟨[], rfl, fun x => by simp⟩
  | cons r rest ih =>
    intro hres
    obtain ⟨calls, hcalls, hcount⟩ :=
      ih (fun r2 h2 => hres r2 (List.mem_cons_of_mem _ h2))
    cases hget : d.get r with
    | none =>
      refine ⟨calls, ?_, ?_⟩
      · simp only [dispatchRoots, hget]
        exact hcalls
      · intro x
        rw [List.countP_cons]
        have hdec : decide ((d.get r).isSome = true ∧ Reach d r x) = false := by
          simp [hget]
        rw [hdec]
        simp [hcount x]
    | some p =>
      obtain ⟨i, n⟩ := p
      obtain ⟨v, c, hok, hnd, hiff⟩ :=
        traverseFuel_root_spec hWF hget (hres r (List.mem_cons_self _ _)) hfuel
      refine ⟨c ++ calls, ?_, ?_⟩
      · simp only [dispatchRoots, hget, hok, hcalls]
      · intro x
        rw [List.count_append, List.countP_cons, hcount x]
        have hc : c.count x =
            if decide ((d.get r).isSome = true ∧ Reach d r x) = true then 1 else 0 := by
          by_cases hr : Reach d r x
          · rw [List.count_eq_one_of_mem hnd ((hiff x).mpr hr)]
            simp [hget, hr]
          · rw [List.count_eq_zero_of_not_mem (fun hx => hr ((hiff x).mp hx))]
            simp [hr]
        omega

open Classical in
/-- Claim C2: when every key reachable from an invalidated root has all its
edges resolving, a dispatch completes; each resolving invalidated root
triggers a traversal whose call list names every key reachable from that
root exactly once (diamonds deduplicated by the per-root visited set), and
the number of callback invocations a key receives in the whole dispatch is
exactly the number of resolving invalidated roots that reach it. -/
theorem c2_dispatch_exact_counts (d : Dag α) (fuel : Nat) (hWF : WF d)
    (hres : ∀ r ∈ d.invalidated, ∀ x, Reach d r x → resolvesAll d x)
    (hfuel : d.nodes.length < fuel) :
    ∃ d2 calls, d.dispatch fuel = .ok d2 calls ∧
      (∀ r ∈ d.invalidated, ∀ i n, d.get r = some (i, n) →
        ∃ v c, traverseFuel d fuel n [] = .ok v c ∧ c.Nodup ∧
          (∀ x, x ∈ c ↔ Reach d r x)) ∧
      (∀ x, calls.count x =
        d.invalidated.countP
          (fun r => decide ((d.get r).isSome = true ∧ Reach d r x))) := by
  obtain ⟨calls, hcalls, hcount⟩ :=
    dispatchRoots_count d fuel hWF hfuel d.invalidated hres
  refine ⟨{ d with invalidated := [] }, calls, ?_, ?_, hcount⟩
  · simp only [Dag.dispatch, hcalls]
  · intro r hr i n hget
    exact traverseFuel_root_spec hWF hget (hres r hr) hfuel

/-- A graph with a diamond `A, B, C, D` plus a second root `E` reaching `D`,
with `A` and `E` invalidated by updates. -/
def dagW2 : Dag Nat :=
  ((((((((((((Dag.new : Dag Nat).add "A" 1).add "B" 2).add "C" 3).add "D" 4).add
    "E" 5).add_edge "A" "B").getD Dag.new).add_edge "A" "C").getD Dag.new |>.add_edge
    "B" "D").getD Dag.new |>.add_edge "C" "D").getD Dag.new |>.add_edge "E" "D").getD
    Dag.new |>.update "A" 10 |>.update "E" 11

open Classical in
/-- Witness for claim C2 at a concrete input. -/
theorem c2_dispatch_exact_counts_witness :
    ∃ d2 calls, dagW2.dispatch 6 = .ok d2 calls ∧
      (∀ r ∈ dagW2.invalidated, ∀ i n, dagW2.get r = some (i, n) →
        ∃ v c, traverseFuel dagW2 6 n [] = .ok v c ∧ c.Nodup ∧
          (∀ x, x ∈ c ↔ Reach dagW2 r x)) ∧
      (∀ x, calls.count x =
        dagW2.invalidated.countP
          (fun r => decide ((dagW2.get r).isSome = true ∧ Reach dagW2 r x))) :=
  c2_dispatch_exact_counts dagW2 6 (by decide)
    (fun r _ x _ => resolvesAll_of_global dagW2 (by decide) x) (by decide)

/-- Claim C3: a dispatch that completes leaves the invalidated set empty —
also when some invalidated keys no longer resolved and were skipped — and an
immediately following dispatch with no intervening update completes with
zero callback invocations and an unchanged graph. -/
theorem c3_dispatch_clears (d : Dag α) (fuel : Nat) (d2 : Dag α)
    (calls : List String) (h : d.dispatch fuel = .ok d2 calls) :
    d2.invalidated = [] ∧ ∀ fuel2, d2.dispatch fuel2 = .ok d2 [] := by
  have hd2 := dispatch_ok_inv h
  subst hd2
  exact ⟨rfl, fun fuel2 => rfl⟩

/-- A graph whose only invalidated key was removed before the dispatch. -/
def dagW3 : Dag Nat := ((((Dag.new : Dag Nat).add "A" 1).update "A" 2).remove "A").1

/-- The graph `dagW3` after its invalidated set is cleared. -/
def dagW3c : Dag Nat := { dagW3 with invalidated := [] }

/-- Witness for claim C3 at a concrete input (the invalidated key `"A"` no
longer resolves and is skipped). -/
theorem c3_dispatch_clears_witness :
    dagW3c.invalidated = [] ∧ dagW3c.dispatch 2 = .ok dagW3c [] :=
  ⟨(c3_dispatch_clears dagW3 2 dagW3c [] (by decide)).1,
   (c3_dispatch_clears dagW3 2 dagW3c [] (by decide)).2 2⟩

/-- Claim C4: on a graph with finitely many nodes in which every edge target
reachable from a live start node resolves, the traversal from that node
terminates — fuel exceeding the node count is never exhausted, even on
cyclic edge relations — and each key enters the visited set at most once. -/
theorem c4_traverse_terminates (d : Dag α) (fuel : Nat) (n : Node α) (i : Nat)
    (hWF : WF d) (hlive : d.get n.key = some (i, n))
    (hres : ∀ x, Reach d n.key x → resolvesAll d x)
    (hfuel : d.nodes.length < fuel) :
    ∃ v c, traverseFuel d fuel n [] = .ok v c ∧ v.Nodup := by
  obtain ⟨v, c, hok⟩ := traverseFuel_ok hWF hlive hres hfuel
  exact ⟨v, c, hok, traverseFuel_nodup fuel n [] v c hok List.nodup_nil⟩

/-- A cyclic graph: `A` and `B` point at each other and `A` at itself. -/
def dagW4 : Dag Nat :=
  ((((((Dag.new : Dag Nat).add "A" 1).add "B" 2).add_edge "A" "B").getD
    Dag.new).add_edge "B" "A").getD Dag.new |>.add_edge "A" "A" |>.getD Dag.new

/-- Witness for claim C4 at a concrete cyclic input. -/
theorem c4_traverse_terminates_witness :
    ∃ v c, traverseFuel dagW4 3 ⟨"A", 1, [⟨1, 1⟩, ⟨1, 0⟩]⟩ [] = .ok v c ∧
      v.Nodup :=
  c4_traverse_terminates dagW4 3 ⟨"A", 1, [⟨1, 1⟩, ⟨1, 0⟩]⟩ 0 (by decide)
    (by decide) (fun x _ => resolvesAll_of_global dagW4 (by decide) x) (by decide)

theorem dispatchRoots_fatal {d : Dag α} {fuel : Nat} (hWF : WF d)
    (hfuel : d.nodes.length < fuel) :
    ∀ rs : List String,
      (∃ r ∈ rs, ∃ i n, d.get r = some (i, n) ∧
        traverseFuel d fuel n [] = .fatal) →
      dispatchRoots d fuel rs = .fatal := by
  have hfc : freshCount d [] < fuel := by
    have h3 : freshCount d [] ≤ (liveKeys d).length := List.countP_le_length _
    have hlen : (liveKeys d).length = d.nodes.length := List.length_map _ _
    omega
  intro rs
  induction rs with
  | nil =>
    rintro ⟨r, hr, _⟩
    cases hr
  | cons r0 rest ih =>
    rintro ⟨r, hr, i, n, hget, hfat⟩
    cases hg0 : d.get r0 with
    | none =>
      simp only [dispatchRoots, hg0]
      refine ih ⟨r, ?_, i, n, hget, hfat⟩
      rcases List.mem_cons.mp hr with rfl | hr2
      · rw [hget] at hg0
        cases hg0
      · exact hr2
    | some p =>
      obtain ⟨i0, n0⟩ := p
      have hkey0 : n0.key = r0 := hWF.get_key hg0
      cases htr : traverseFuel d fuel n0 [] with
      | ok v c =>
        have hr2 : r ∈ rest := by
          rcases List.mem_cons.mp hr with rfl | hr2
          · rw [hget] at hg0
            cases hg0
            rw [hfat] at htr
            cases htr
          · exact hr2
        have hrest := ih ⟨r, hr2, i, n, hget, hfat⟩
        simp only [dispatchRoots, hg0, htr, hrest]
      | fatal => simp only [dispatchRoots, hg0, htr]
      | fuelOut =>
        have hlive : ∃ i2, d.get n0.key = some (i2, n0) :=
          ⟨i0, by rw [hkey0]; exact hg0⟩
        exact absurd htr (traverseFuel_no_fuelOut hWF fuel n0 [] hlive hfc)

/-- Claim C7: if the traversal from a resolving invalidated root can reach a
key whose live node has an edge with a dangling target, the whole dispatch
aborts fatally instead of skipping the edge or continuing with other edges
or roots. -/
theorem c7_dangling_reachable_fatal (d : Dag α) (fuel : Nat) (hWF : WF d)
    (hfuel : d.nodes.length < fuel) (r : String) (hr : r ∈ d.invalidated)
    (i : Nat) (n : Node α) (hn : d.get r = some (i, n))
    (x : String) (hreach : Reach d r x)
    (j : Nat) (m : Node α) (hx : d.get x = some (j, m))
    (e : Edge) (he : e ∈ m.edges) (hdangle : d.upgrade e.to_node = none) :
    d.dispatch fuel = .fatal := by
  have hkey : n.key = r := hWF.get_key hn
  have hfc : freshCount d [] < fuel := by
    have h3 : freshCount d [] ≤ (liveKeys d).length := List.countP_le_length _
    have hlen : (liveKeys d).length = d.nodes.length := List.length_map _ _
    omega
  have hn2 : d.get n.key = some (i, n) := by rw [hkey]; exact hn
  have hfat : traverseFuel d fuel n [] = .fatal := by
    cases htr : traverseFuel d fuel n [] with
    | ok v c =>
      have hxv : x ∈ v :=
        traverseFuel_complete hWF hn2 htr x (by rw [hkey]; exact hreach)
      have hresx := traverseFuel_resolves hWF fuel n [] v c ⟨i, hn2⟩ htr x hxv
        (List.not_mem_nil x)
      obtain ⟨tn, htn⟩ := hresx j m hx e he
      rw [hdangle] at htn
      cases htn
    | fatal => rfl
    | fuelOut =>
      exact absurd htr (traverseFuel_no_fuelOut hWF fuel n [] ⟨i, hn2⟩ hfc)
  have hroots := dispatchRoots_fatal hWF hfuel d.invalidated ⟨r, hr, i, n, hn, hfat⟩
  simp only [Dag.dispatch, hroots]

/-- A graph whose invalidated root `"A"` has an edge to the removed `"B"`. -/
def dagW7 : Dag Nat :=
  (((((((Dag.new : Dag Nat).add "A" 1).add "B" 2).add_edge "A" "B").getD
    Dag.new).update "A" 3).remove "B").1

/-- Witness for claim C7 at a concrete input. -/
theorem c7_dangling_reachable_fatal_witness : dagW7.dispatch 2 = .fatal :=
  c7_dangling_reachable_fatal dagW7 2 (by decide) (by decide) "A" (by decide)
    0 ⟨"A", 3, [⟨1, 1⟩]⟩ (by decide) "A" (Reach.refl "A")
    0 ⟨"A", 3, [⟨1, 1⟩]⟩ (by decide) ⟨1, 1⟩ (by decide) (by decide)

end DagSpec
